import Mathlib

/-!
Shallow embedding of `src/main.py` (resume manager: extraction, Neo4j
storage, natural-language querying).

The persisted Neo4j graph is modelled explicitly: `Candidate` nodes carry an
internal node id plus `name`/`contact` properties, `Skill` nodes are keyed by
their `name` property (the Cypher `MERGE (s:Skill {name: skill})` matches on
that single property, so a skill node is determined by its name), and
`HAS_SKILL` relationships are (candidate-id, skill-name) pairs.  Stateful
Python functions become explicit state passing: each database function takes
the graph before the call and returns the graph after the call together with
its Python return value.  The possibility that the underlying driver raises
(connectivity loss, constraint violation, ...) is modelled by an extra
`Option String` oracle argument: `some e` means the transaction raises an
exception rendered as the string `e`, `none` means it runs normally.  A
raised write transaction is rolled back by `execute_write`, so the graph is
unchanged in that case.
-/

namespace ResumeManager

/-- The dictionary produced by `extract_resume_details` and consumed by
`store_in_neo4j`.  The optional `error` field models presence of the
`"error"` key in the Python dict. -/
structure ResumeData where
  name : String
  contact : String
  skills : List String
  error : Option String
deriving DecidableEq, Repr

/-- The status dictionary returned by `store_in_neo4j`:
`{"status": ..., "message": ...}`, the message key being optional. -/
structure StoreResult where
  status : String
  message : Option String
deriving DecidableEq, Repr

/-- The persisted Neo4j property graph, restricted to the shapes the program
writes: `Candidate` nodes `(id, name, contact)`, `Skill` nodes keyed by name,
and `HAS_SKILL` edges `(candidate id, skill name)`.  `nextId` is the next
fresh internal node id handed out by `CREATE`. -/
structure Graph where
  candidates : List (Nat × String × String)
  skills : List String
  hasSkill : List (Nat × String)
  nextId : Nat
deriving DecidableEq, Repr

/-- The graph before any write. -/
def emptyGraph : Graph := ⟨[], [], [], 0⟩

/-- Embedding of `extract_resume_details` (src/main.py lines 34-48).  The
body is a placeholder that builds a literal dict and returns it; constructing
a literal cannot raise `IOError`/`ValueError`, so the `except` branch that
would return `{"error": ...}` is dead code and the function is a constant:
every input path yields the same fixed record with no `error` key. -/
def extract_resume_details (file_path : String) : ResumeData :=
  { name := "John Doe"
    contact := "john@example.com"
    skills := ["Python", "Neo4j", "AI"]
    error := none }

/-- Semantics of the `UNWIND $skills AS skill MERGE (s:Skill {name: skill})`
part of the write statement: walk the skill list in order; a skill name that
already has a node is reused, a new name gets a node appended. -/
def mergeSkills (ss : List String) (sks : List String) : List String :=
  sks.foldl (fun acc sk => if sk ∈ acc then acc else acc ++ [sk]) ss

/-- Semantics of the single Cypher write statement in `store_in_neo4j`:
`CREATE (c:Candidate {name: $name, contact: $contact}) WITH c UNWIND $skills
AS skill MERGE (s:Skill {name: skill}) CREATE (c)-[:HAS_SKILL]->(s)`.
`CREATE` always allocates a fresh candidate node; for each element of the
skills list (in order, duplicates included) the skill node is merged and a
`HAS_SKILL` edge from the fresh candidate is created unconditionally. -/
def writeTx (g : Graph) (name contact : String) (sks : List String) : Graph :=
  { candidates := g.candidates ++ [(g.nextId, name, contact)]
    skills := mergeSkills g.skills sks
    hasSkill := g.hasSkill ++ sks.map (fun sk => (g.nextId, sk))
    nextId := g.nextId + 1 }

/-- Embedding of `store_in_neo4j` (src/main.py lines 53-73).  If the input
dict has an `"error"` key the function returns a failure dict immediately and
touches no session.  Otherwise it runs the write transaction; `txFail = some
e` models the transaction raising an exception `e`, which the
`except (IOError, ValueError, Exception)` clause catches (every exception
class involved derives from `Exception`), returning a failure dict with the
exception text; the raised transaction is rolled back, leaving the graph
unchanged.  On the normal path the transaction commits and a success dict is
returned.  No exception escapes: the embedding is a total function into
`Graph × StoreResult`. -/
def store_in_neo4j (g : Graph) (data : ResumeData) (txFail : Option String) :
    Graph × StoreResult :=
  match data.error with
  | some msg => (g, ⟨"failure", some msg⟩)
  | none =>
    match txFail with
    | some e => (g, ⟨"failure", some e⟩)
    | none => (writeTx g data.name data.contact data.skills, ⟨"success", none⟩)

/-- A result row of the read query: `RETURN c.name AS name, c.contact AS
contact, collect(s.name) AS skills`. -/
structure Row where
  name : String
  contact : String
  skills : List String
deriving DecidableEq, Repr

/-- Property lookup for a candidate node id (Cypher resolves `c.name`,
`c.contact` from the matched node). -/
def candidateLookup (g : Graph) (cid : Nat) : Option (String × String) :=
  (g.candidates.find? (fun c => c.1 == cid)).map (fun c => c.2)

/-- The matches of `MATCH (c:Candidate)-[:HAS_SKILL]->(s:Skill {name:
'Python'})`: one match per `HAS_SKILL` edge whose target skill name is
`"Python"` and whose endpoints exist, projected to the candidate's
`(name, contact)` properties. -/
def pythonMatches (g : Graph) : List (String × String) :=
  if "Python" ∈ g.skills then
    g.hasSkill.filterMap (fun e =>
      if e.2 == "Python" then candidateLookup g e.1 else none)
  else []

/-- The rows returned by the fixed read statement: Cypher aggregation groups
the matches by the values of the non-aggregated projections `c.name`,
`c.contact` and collects `s.name` (always `"Python"` here) once per match in
the group. -/
def query_rows (g : Graph) : List Row :=
  (pythonMatches g).dedup.map (fun k =>
    ⟨k.1, k.2, List.replicate ((pythonMatches g).count k) "Python"⟩)

/-- Embedding of `query_neo4j` (src/main.py lines 78-92).  The
`natural_query` argument is never inspected: the function always runs the one
fixed `MATCH ... RETURN ...` statement, which has no write clauses.  `qFail =
some e` models the session raising, caught by the `except` clause and
returned as an error dict (`Except.error e`); otherwise the row list is
returned.  Either way the graph is not mutated. -/
def query_neo4j (g : Graph) (natural_query : String) (qFail : Option String) :
    Graph × Except String (List Row) :=
  match qFail with
  | some e => (g, Except.error e)
  | none => (g, Except.ok (query_rows g))

/-- A sequence of `store_in_neo4j` calls threaded through the graph, each
call carrying its input dict and its transaction-failure oracle. -/
def storeAll (g : Graph) (calls : List (ResumeData × Option String)) : Graph :=
  calls.foldl (fun acc call => (store_in_neo4j acc call.1 call.2).1) g

/-- Well-formedness of a graph for node lookup: internal candidate node ids
are distinct (Neo4j allocates distinct ids; every graph this program builds
from `emptyGraph` satisfies it). -/
def Graph.wf (g : Graph) : Prop := (g.candidates.map Prod.fst).Nodup

instance (g : Graph) : Decidable g.wf :=
  inferInstanceAs (Decidable ((g.candidates.map Prod.fst).Nodup))

/-- The record the placeholder extraction always produces. -/
def sampleData : ResumeData :=
  { name := "John Doe"
    contact := "john@example.com"
    skills := ["Python", "Neo4j", "AI"]
    error := none }

/-- An input dict carrying an `"error"` key. -/
def errData : ResumeData :=
  { name := "", contact := "", skills := [], error := some "parse failed" }

/-- Modelled from the spec: the `Intent` tagged variant of the
QueryTranslator (spec §4.3); no query-translation stage exists in
src/main.py. -/
inductive Intent where
  | ListContacts
  | FilterByAgeAbove (threshold : Nat)
  | FilterBySkill (skill : String)
  | ListAll
  | Unsupported (question : String)
deriving DecidableEq, Repr

/-- ASCII lowercasing of one character, for the translator's case-insensitive
matching. -/
def asciiLower (c : Char) : Char :=
  if 65 ≤ c.toNat ∧ c.toNat ≤ 90 then Char.ofNat (c.toNat + 32) else c

/-- Splits a character list into space-separated words, with `acc` the
reversed characters of the word being read. -/
def wordsAux : List Char → List Char → List String
  | [], acc => [String.mk acc.reverse]
  | c :: cs, acc =>
    if c = ' ' then String.mk acc.reverse :: wordsAux cs []
    else wordsAux cs (c :: acc)

/-- The space-separated word tokens of a question, ASCII-lowercased. -/
def lowerWords (s : String) : List String :=
  wordsAux (s.data.map asciiLower) []

/-- Decimal parse of a token: `some n` exactly when the token is a nonempty
all-digit string. -/
def parseDecimal (s : String) : Option Nat :=
  if s.data ≠ [] ∧ s.data.all (fun c => c.isDigit) then
    some (s.data.foldl (fun n c => 10 * n + (c.toNat - 48)) 0)
  else none

/-- Whether the word `x` is immediately followed by the word `y` somewhere in
the token list. -/
def hasAdjacentPair : List String → String → String → Bool
  | [], _, _ => false
  | [_], _, _ => false
  | a :: b :: rest, x, y => (a == x && b == y) || hasAdjacentPair (b :: rest) x y

/-- The first token following the first occurrence of the word `x`, if any. -/
def tokenAfter : List String → String → Option String
  | [], _ => none
  | [_], _ => none
  | a :: b :: rest, x => if a == x then some b else tokenAfter (b :: rest) x

/-- The first token following the first adjacent occurrence of `x y`, if
any. -/
def tokenAfterPair : List String → String → String → Option String
  | a :: b :: c :: rest, x, y =>
    if a == x && b == y then some c else tokenAfterPair (b :: c :: rest) x y
  | _, _, _ => none

/-- Modelled from the spec: the QueryTranslator contract `translate(question)
-> Intent` (spec §4.3), absent from src/main.py.  Deterministic
first-match-wins over the fixed priority order, matching case-insensitively
on the question's space-separated word tokens: (1) "contact number" or
"phone" gives `ListContacts`; (2) "age above <integer>" gives
`FilterByAgeAbove`, a non-numeric token after "age above" being a hard
translation failure; (3) "skill" followed by a word gives `FilterBySkill` of
that word; (4) "all candidates" gives `ListAll`; (5) otherwise `Unsupported`
carrying the original question. -/
def translate (question : String) : Except String Intent :=
  let ws := lowerWords question
  if hasAdjacentPair ws "contact" "number" || ws.contains "phone" then
    Except.ok Intent.ListContacts
  else
    match tokenAfterPair ws "age" "above" with
    | some tok =>
      match parseDecimal tok with
      | some n => Except.ok (Intent.FilterByAgeAbove n)
      | none => Except.error "translation failure: non-numeric age threshold"
    | none =>
      match tokenAfter ws "skill" with
      | some w => Except.ok (Intent.FilterBySkill w)
      | none =>
        if hasAdjacentPair ws "all" "candidates" then Except.ok Intent.ListAll
        else Except.ok (Intent.Unsupported question)

/-- Modelled from the spec: the fixed SkillVocabulary (spec §2, §6), a static
set of known skill names.  src/main.py declares no vocabulary; the model
takes the skill names appearing in the source's placeholder extraction and in
the spec's own scenarios. -/
def SkillVocabulary : List String := ["Python", "Neo4j", "AI", "SQL", "Flask"]

/-! Helper lemmas about the skill-merge semantics. -/

theorem mergeSkills_cons (ss : List String) (x : String) (xs : List String) :
    mergeSkills ss (x :: xs) = mergeSkills (if x ∈ ss then ss else ss ++ [x]) xs := rfl

theorem nodup_mergeSkills :
    ∀ (sks ss : List String), ss.Nodup → (mergeSkills ss sks).Nodup := by
  intro sks
  induction sks with
  | nil => intro ss h; exact h
  | cons x xs ih =>
    intro ss h
    rw [mergeSkills_cons]
    split_ifs with hx
    · exact ih ss h
    · refine ih (ss ++ [x]) ?_
      refine List.Nodup.append h (List.nodup_singleton x) ?_
      intro a ha hax
      rw [List.mem_singleton] at hax
      exact hx (hax ▸ ha)

theorem mergeSkills_of_subset :
    ∀ (sks ss : List String), (∀ a ∈ sks, a ∈ ss) → mergeSkills ss sks = ss := by
  intro sks
  induction sks with
  | nil => intro ss _; rfl
  | cons x xs ih =>
    intro ss h
    rw [mergeSkills_cons, if_pos (h x (List.mem_cons_self x xs))]
    exact ih ss (fun a ha => h a (List.mem_cons_of_mem x ha))

theorem mergeSkills_of_disjoint :
    ∀ (sks ss : List String), sks.Nodup → (∀ a ∈ sks, a ∉ ss) →
      mergeSkills ss sks = ss ++ sks := by
  intro sks
  induction sks with
  | nil => intro ss _ _; simp [mergeSkills]
  | cons x xs ih =>
    intro ss hnd hdis
    have hx : x ∉ ss := hdis x (List.mem_cons_self x xs)
    rw [mergeSkills_cons, if_neg hx,
      ih (ss ++ [x]) (List.Nodup.of_cons hnd) ?_, List.append_assoc,
      List.singleton_append]
    intro a ha
    rw [List.mem_append, List.mem_singleton]
    rintro (h1 | rfl)
    · exact hdis a (List.mem_cons_of_mem x ha) h1
    · exact (List.nodup_cons.mp hnd).1 ha

theorem mergeSkills_nil_eq (sks : List String) (h : sks.Nodup) :
    mergeSkills [] sks = sks := by
  have := mergeSkills_of_disjoint sks [] h (by simp)
  simpa using this

/-! Helper lemmas about candidate-node lookup in a well-formed graph. -/

theorem find_candidate_of_mem :
    ∀ (l : List (Nat × String × String)) (cid : Nat) (p : String × String),
      (l.map Prod.fst).Nodup → (cid, p) ∈ l →
      l.find? (fun c => c.1 == cid) = some (cid, p) := by
  intro l
  induction l with
  | nil => intro cid p _ hm; cases hm
  | cons c rest ih =>
    intro cid p hnd hm
    by_cases hc : c.1 = cid
    · rw [List.find?_cons_of_pos _ (by simp [hc])]
      rcases List.mem_cons.mp hm with h | h
      · rw [h]
      · exfalso
        rw [List.map_cons, List.nodup_cons] at hnd
        exact hnd.1 (hc ▸ List.mem_map.mpr ⟨(cid, p), h, rfl⟩)
    · rw [List.find?_cons_of_neg _ (by simp [hc])]
      rcases List.mem_cons.mp hm with h | h
      · exact absurd (congrArg Prod.fst h.symm) hc
      · exact ih cid p (by rw [List.map_cons, List.nodup_cons] at hnd; exact hnd.2) h

theorem mem_of_find_candidate (l : List (Nat × String × String)) (cid : Nat)
    (c : Nat × String × String) (h : l.find? (fun x => x.1 == cid) = some c) :
    c.1 = cid ∧ c ∈ l := by
  have hp := List.find?_some h
  simp only [beq_iff_eq] at hp
  exact ⟨hp, List.mem_of_find?_eq_some h⟩

theorem candidateLookup_iff (g : Graph) (hwf : g.wf) (cid : Nat) (p : String × String) :
    candidateLookup g cid = some p ↔ (cid, p) ∈ g.candidates := by
  constructor
  · intro h
    unfold candidateLookup at h
    rcases Option.map_eq_some'.mp h with ⟨c, hfind, hp⟩
    obtain ⟨h1, h2⟩ := mem_of_find_candidate g.candidates cid c hfind
    have : c = (cid, p) := by
      rcases c with ⟨c1, c2⟩
      simp only at h1 hp
      rw [h1, hp]
    exact this ▸ h2
  · intro h
    unfold candidateLookup
    rw [find_candidate_of_mem g.candidates cid p hwf h]
    rfl

theorem mem_pythonMatches (g : Graph) (hwf : g.wf) (n ct : String) :
    (n, ct) ∈ pythonMatches g ↔
      "Python" ∈ g.skills ∧
        ∃ cid, (cid, n, ct) ∈ g.candidates ∧ (cid, "Python") ∈ g.hasSkill := by
  unfold pythonMatches
  split_ifs with hp
  · simp only [List.mem_filterMap, hp, true_and]
    constructor
    · rintro ⟨e, he, hfe⟩
      by_cases h2 : e.2 = "Python"
      · rw [if_pos (by simp [h2])] at hfe
        refine ⟨e.1, (candidateLookup_iff g hwf e.1 (n, ct)).mp hfe, ?_⟩
        have : e = (e.1, "Python") := by
          rcases e with ⟨e1, e2⟩
          simp only at h2 ⊢
          rw [h2]
        exact this ▸ he
      · rw [if_neg (by simp [h2])] at hfe
        cases hfe
    · rintro ⟨cid, hc, he⟩
      refine ⟨(cid, "Python"), he, ?_⟩
      rw [if_pos (by simp)]
      exact (candidateLookup_iff g hwf cid (n, ct)).mpr hc
  · simp [hp]

theorem mem_query_rows (g : Graph) (n ct : String) :
    (∃ r ∈ query_rows g, r.name = n ∧ r.contact = ct) ↔ (n, ct) ∈ pythonMatches g := by
  unfold query_rows
  constructor
  · rintro ⟨r, hr, hn, hct⟩
    rcases List.mem_map.mp hr with ⟨k, hk, hrk⟩
    have hk' : k = (n, ct) := by
      rcases k with ⟨k1, k2⟩
      rw [← hrk] at hn hct
      simp only at hn hct
      rw [hn, hct]
    exact List.mem_dedup.mp (hk' ▸ hk)
  · intro h
    refine ⟨⟨n, ct, List.replicate ((pythonMatches g).count (n, ct)) "Python"⟩, ?_, rfl, rfl⟩
    exact List.mem_map.mpr ⟨(n, ct), List.mem_dedup.mpr h, rfl⟩

/-! Claim theorems. -/

/-- C1 counterexample: storing the same record twice starting from the empty
graph does not leave exactly one Candidate node — the write statement uses
`CREATE (c:Candidate ...)`, which allocates a fresh candidate node on every
call, so the second identical write adds a second node. -/
theorem store_twice_not_one_candidate :
    ((store_in_neo4j (store_in_neo4j emptyGraph sampleData none).1
        sampleData none).1).candidates.length ≠ 1 := by
  decide

/-- C1 (amended): storing the same error-free record (with duplicate-free
skills) twice from the empty graph yields two Candidate nodes — one per call,
both carrying the record's name and contact — while the Skill nodes are still
exactly one per distinct skill of the record, and no `HAS_SKILL` relationship
is duplicated (each call's relationships attach to that call's fresh
candidate node). -/
theorem store_twice_amended (d : ResumeData) (he : d.error = none)
    (hn : d.skills.Nodup) :
    ((store_in_neo4j (store_in_neo4j emptyGraph d none).1 d none).1).candidates
        = [(0, d.name, d.contact), (1, d.name, d.contact)] ∧
    ((store_in_neo4j (store_in_neo4j emptyGraph d none).1 d none).1).skills
        = d.skills ∧
    ((store_in_neo4j (store_in_neo4j emptyGraph d none).1 d none).1).hasSkill.Nodup := by
  rcases d with ⟨nm, ct, sks, err⟩
  obtain rfl : err = none := he
  simp only [store_in_neo4j, writeTx, emptyGraph]
  refine ⟨by simp, ?_, ?_⟩
  · show mergeSkills (mergeSkills [] sks) sks = sks
    rw [mergeSkills_nil_eq sks hn, mergeSkills_of_subset sks sks (fun a ha => ha)]
  · simp only [List.nil_append]
    have m0 : (sks.map fun sk => ((0 : Nat), sk)).Nodup :=
      hn.map (fun a b h => by simpa using h)
    have m1 : (sks.map fun sk => ((1 : Nat), sk)).Nodup :=
      hn.map (fun a b h => by simpa using h)
    refine List.Nodup.append m0 m1 ?_
    intro a h0 h1
    rcases List.mem_map.mp h0 with ⟨s, _, rfl⟩
    rcases List.mem_map.mp h1 with ⟨t, _, he2⟩
    have h10 : (1 : Nat) = 0 := congrArg Prod.fst he2
    exact absurd h10 (by decide)

/-- Witness for `store_twice_amended` at the placeholder record. -/
theorem store_twice_amended_witness :
    ((store_in_neo4j (store_in_neo4j emptyGraph sampleData none).1
        sampleData none).1).candidates
        = [(0, sampleData.name, sampleData.contact),
           (1, sampleData.name, sampleData.contact)] ∧
    ((store_in_neo4j (store_in_neo4j emptyGraph sampleData none).1
        sampleData none).1).skills = sampleData.skills ∧
    ((store_in_neo4j (store_in_neo4j emptyGraph sampleData none).1
        sampleData none).1).hasSkill.Nodup :=
  store_twice_amended sampleData rfl (by decide)

/-- C2: after any sequence of `store_in_neo4j` calls starting from the empty
graph, the Skill nodes are pairwise distinct — at most one Skill node per
distinct name.  The write statement's `MERGE (s:Skill {name: skill})` reuses
the already-persisted node for a known name instead of creating a second
one. -/
theorem skill_nodes_unique (calls : List (ResumeData × Option String)) :
    ((storeAll emptyGraph calls).skills).Nodup := by
  have step : ∀ (g : Graph) (d : ResumeData) (f : Option String),
      g.skills.Nodup → ((store_in_neo4j g d f).1).skills.Nodup := by
    intro g d f h
    unfold store_in_neo4j
    cases d.error with
    | some m => exact h
    | none =>
      cases f with
      | some e => exact h
      | none => exact nodup_mergeSkills d.skills g.skills h
  have main : ∀ (cs : List (ResumeData × Option String)) (g : Graph),
      g.skills.Nodup → ((storeAll g cs).skills).Nodup := by
    intro cs
    induction cs with
    | nil => intro g h; exact h
    | cons c rest ih => intro g h; exact ih _ (step g c.1 c.2 h)
  exact main calls emptyGraph (by decide)

/-- C3: when the write transaction raises (modelled by the `some e` oracle)
on an error-free input, `store_in_neo4j` catches it — the `except` clause
covers `Exception`, hence every exception the driver can raise — and returns
a failure status carrying the exception's message, with the rolled-back graph
unchanged.  Totality of the embedding reflects that nothing propagates. -/
theorem store_catches_transaction_failure (g : Graph) (d : ResumeData)
    (e : String) (he : d.error = none) :
    store_in_neo4j g d (some e) = (g, ⟨"failure", some e⟩) := by
  unfold store_in_neo4j
  rw [he]

/-- Witness for `store_catches_transaction_failure` on a concrete failing
transaction. -/
theorem store_catches_transaction_failure_witness :
    store_in_neo4j emptyGraph sampleData (some "connection refused")
      = (emptyGraph, ⟨"failure", some "connection refused"⟩) :=
  store_catches_transaction_failure emptyGraph sampleData "connection refused" rfl

/-- C4: for every input, extraction returns a record (never an error dict and
never an uncaught exception — the embedding is a total function): the
placeholder body builds a literal record, so no field ever fails to match and
the `error` key is never present. -/
theorem extract_always_returns_record (file_path : String) :
    extract_resume_details file_path = sampleData ∧
    (extract_resume_details file_path).error = none :=
  ⟨rfl, rfl⟩

/-- C5: for every input, the extracted skills are members of the (modelled)
SkillVocabulary, with the vocabulary's exact casing, and contain no
duplicates. -/
theorem extract_skills_in_vocabulary (file_path : String) :
    (∀ s ∈ (extract_resume_details file_path).skills, s ∈ SkillVocabulary) ∧
    (extract_resume_details file_path).skills.Nodup := by
  show (∀ s ∈ sampleData.skills, s ∈ SkillVocabulary) ∧ sampleData.skills.Nodup
  decide

/-- C6: on the spec's scenario text, extraction returns the fixed placeholder
record — in particular the name is "John Doe", not "Jane Smith": the code
never inspects its input. -/
theorem extract_jane_smith_scenario :
    extract_resume_details
        "Jane Smith, jane@x.com, 9998887770, 29 years, skills: Python, SQL"
      = sampleData ∧ sampleData.name ≠ "Jane Smith" :=
  ⟨rfl, by decide⟩

/-- C7: the question "Show all candidates with skill Python" translates (in
the spec-modelled QueryTranslator) to `FilterBySkill "python"`, and on any
well-formed graph the executed fixed query returns rows whose (name, contact)
projections are exactly the candidates owning a `HAS_SKILL` edge to the
`Python` Skill node. -/
theorem filter_by_skill_python_scenario :
    translate "Show all candidates with skill Python"
        = Except.ok (Intent.FilterBySkill "python") ∧
    ∀ g : Graph, g.wf → ∀ n ct : String,
      (query_neo4j g "Show all candidates with skill Python" none).2
          = Except.ok (query_rows g) ∧
      ((∃ r ∈ query_rows g, r.name = n ∧ r.contact = ct) ↔
        "Python" ∈ g.skills ∧
          ∃ cid, (cid, n, ct) ∈ g.candidates ∧ (cid, "Python") ∈ g.hasSkill) := by
  refine ⟨rfl, ?_⟩
  intro g hwf n ct
  exact ⟨rfl, (mem_query_rows g n ct).trans (mem_pythonMatches g hwf n ct)⟩

/-- Witness for `filter_by_skill_python_scenario` on the graph produced by
one store of the placeholder record. -/
theorem filter_by_skill_python_scenario_witness :
    Graph.wf (store_in_neo4j emptyGraph sampleData none).1 ∧
    ((query_neo4j (store_in_neo4j emptyGraph sampleData none).1
          "Show all candidates with skill Python" none).2
        = Except.ok (query_rows (store_in_neo4j emptyGraph sampleData none).1) ∧
      ((∃ r ∈ query_rows (store_in_neo4j emptyGraph sampleData none).1,
          r.name = "John Doe" ∧ r.contact = "john@example.com") ↔
        "Python" ∈ (store_in_neo4j emptyGraph sampleData none).1.skills ∧
          ∃ cid, (cid, "John Doe", "john@example.com")
                ∈ (store_in_neo4j emptyGraph sampleData none).1.candidates ∧
            (cid, "Python") ∈ (store_in_neo4j emptyGraph sampleData none).1.hasSkill)) :=
  ⟨by decide,
    filter_by_skill_python_scenario.2 (store_in_neo4j emptyGraph sampleData none).1
      (by decide) "John Doe" "john@example.com"⟩

/-- C8: `query_neo4j` never mutates the persisted graph: whatever the
question and whether or not the session raises, the graph component of the
result is the input graph — the embedded statement is a `MATCH ... RETURN`
with no write clauses. -/
theorem query_preserves_graph (g : Graph) (q : String) (f : Option String) :
    (query_neo4j g q f).1 = g := by
  cases f <;> rfl

/-- C9: an input dict carrying an `"error"` key makes `store_in_neo4j` return
a failure dict with that error message before any session is opened: the
graph is returned unchanged. -/
theorem store_error_key_short_circuits (g : Graph) (d : ResumeData)
    (f : Option String) (m : String) (he : d.error = some m) :
    store_in_neo4j g d f = (g, ⟨"failure", some m⟩) := by
  unfold store_in_neo4j
  rw [he]

/-- Witness for `store_error_key_short_circuits` on a concrete error dict. -/
theorem store_error_key_short_circuits_witness :
    store_in_neo4j emptyGraph errData none
      = (emptyGraph, ⟨"failure", some "parse failed"⟩) :=
  store_error_key_short_circuits emptyGraph errData none "parse failed" rfl

/-- C10: the result of `query_neo4j` does not depend on the natural-language
question: for any two questions over the same graph and session behavior, the
calls are equal — the function always issues the one fixed query matching
candidates with the Python skill. -/
theorem query_ignores_question (g : Graph) (q1 q2 : String) (f : Option String) :
    query_neo4j g q1 f = query_neo4j g q2 f := rfl

end ResumeManager
